import Mathlib

/-!
Verification of the FoCal (Filter Overlap Correction ALgorithm) core from
`focal.py`: the tiled composite search space, the greedy spike-selection
loop, the local/global coordinate utilities and the correlation-based
overlap correction.

Numeric model: the Python code works on IEEE floating point arrays whose
interesting behaviour here is structural (sentinels `-inf`, `+inf`, `nan`
and their comparison/arithmetic rules), not rounding.  We therefore model
values as an extended-rational type `FV` with IEEE-style equality,
ordering, subtraction and multiplication (`nan` compares false with
everything, including itself; `inf - inf = nan`; ...).
-/

/-- Rational multiplication through `Rat.normalize` (definitionally
reducible, unlike the irreducible `Rat.mul`); proved equal to `*`. -/
def rmul (a b : ℚ) : ℚ :=
  Rat.normalize (a.num * b.num) (a.den * b.den) (by simp [a.den_nz, b.den_nz])

/-- Rational subtraction through `mkRat`; proved equal to `-`. -/
def rsub (a b : ℚ) : ℚ := mkRat (a.num * b.den - b.num * a.den) (a.den * b.den)

/-- Extended value: a finite rational, `+inf`, `-inf` or `nan`. -/
inductive FV where
  | fin (q : ℚ)
  | pinf
  | ninf
  | nan
deriving DecidableEq, Repr

open FV

/-- IEEE equality test (`==` in numpy): `nan` is not equal to anything. -/
def feq : FV → FV → Bool
  | FV.nan, _ => false
  | _, FV.nan => false
  | FV.pinf, FV.pinf => true
  | FV.ninf, FV.ninf => true
  | FV.fin a, FV.fin b => decide (a = b)
  | _, _ => false

/-- IEEE less-or-equal (`<=`): false whenever either side is `nan`. -/
def fle : FV → FV → Bool
  | FV.nan, _ => false
  | _, FV.nan => false
  | FV.ninf, _ => true
  | _, FV.pinf => true
  | FV.pinf, _ => false
  | FV.fin a, FV.fin b => decide (a ≤ b)
  | FV.fin _, FV.ninf => false

/-- IEEE subtraction on extended values. -/
def fsub : FV → FV → FV
  | FV.nan, _ => FV.nan
  | _, FV.nan => FV.nan
  | FV.pinf, FV.pinf => FV.nan
  | FV.pinf, _ => FV.pinf
  | FV.ninf, FV.ninf => FV.nan
  | FV.ninf, _ => FV.ninf
  | FV.fin _, FV.pinf => FV.ninf
  | FV.fin _, FV.ninf => FV.pinf
  | FV.fin a, FV.fin b => FV.fin (rsub a b)

/-- IEEE multiplication on extended values (`inf * 0 = nan`). -/
def fmul : FV → FV → FV
  | FV.nan, _ => FV.nan
  | _, FV.nan => FV.nan
  | FV.fin a, FV.fin b => FV.fin (rmul a b)
  | FV.pinf, FV.pinf => FV.pinf
  | FV.pinf, FV.ninf => FV.ninf
  | FV.ninf, FV.pinf => FV.ninf
  | FV.ninf, FV.ninf => FV.pinf
  | FV.pinf, FV.fin b => if 0 < b then FV.pinf else if b < 0 then FV.ninf else FV.nan
  | FV.fin a, FV.pinf => if 0 < a then FV.pinf else if a < 0 then FV.ninf else FV.nan
  | FV.ninf, FV.fin b => if 0 < b then FV.ninf else if b < 0 then FV.pinf else FV.nan
  | FV.fin a, FV.ninf => if 0 < a then FV.ninf else if a < 0 then FV.pinf else FV.nan

/-- A 2D array of extended values, as a total function on coordinates. -/
abbrev Img : Type := Nat → Nat → FV

/-- A correlation kernel: its side length `w` and its entries `f`. -/
structure Kern where
  w : Nat
  f : Nat → Nat → FV

/-- One emitted spike `[local_idx, max_val, cell_type]` of `Focal.focal`. -/
structure Spike where
  local_idx : Nat
  value : FV
  cell_type : Nat
deriving DecidableEq, Repr

/-- Modelled from the spec: `idx2coord` is imported by `focal.py` from the
package `__init__`, which is not part of the available sources.  Per the
spec's CoordinateMapper, a flat index is unravelled with the row stride:
`(idx / width, idx % width)`. -/
def idx2coord (idx width : Nat) : Nat × Nat := (idx / width, idx % width)

/-- `Focal.global_to_single_coords`: reduce a global (2H,2W) coordinate to
the local (H,W) frame by integer division and subtraction. -/
def global_to_single_coords (coords : Nat × Nat) (single_shape : Nat × Nat) : Nat × Nat :=
  (coords.1 - single_shape.1 * (coords.1 / single_shape.1),
   coords.2 - single_shape.2 * (coords.2 / single_shape.2))

/-- `Focal.cell_type_from_global_coords`: which quadrant/layer a global
coordinate belongs to. -/
def cell_type_from_global_coords (coords : Nat × Nat) (single_shape : Nat × Nat) : Nat :=
  (coords.1 / single_shape.1) * 2 + (coords.2 / single_shape.2)

/-- `Focal.local_coords_to_global_idx`: embed a local coordinate into the
2x2 tiled global frame for a given cell type and flatten it with the
global row stride. -/
def local_coords_to_global_idx (coords : Nat × Nat) (cell_type : Nat)
    (local_img_shape global_img_shape : Nat × Nat) : Nat :=
  (coords.1 + (cell_type / 2) * local_img_shape.1) * global_img_shape.2 +
    (coords.2 + (cell_type % 2) * local_img_shape.2)

/-! ### The correction zone of `Focal.adjust_with_correlation`

The source computes, from the flat index `max_idx` of the spike and the
shape `(img_height, img_width)` of the big image, the quadrant limits and
the clipped window `[min_img_row, max_img_row) x [min_img_col, max_img_col)`
together with the aligned kernel offsets. -/

/-- `row` of the spike inside the big image. -/
def adjRow (bigW maxIdx : Nat) : Nat := (idx2coord maxIdx bigW).1

/-- `col` of the spike inside the big image. -/
def adjCol (bigW maxIdx : Nat) : Nat := (idx2coord maxIdx bigW).2

/-- `up_lim = row_idx * half_img_height`. -/
def upLim (bigH bigW maxIdx : Nat) : Nat :=
  (adjRow bigW maxIdx / (bigH / 2)) * (bigH / 2)

/-- `down_lim = (row_idx + 1) * half_img_height`. -/
def downLim (bigH bigW maxIdx : Nat) : Nat :=
  (adjRow bigW maxIdx / (bigH / 2) + 1) * (bigH / 2)

/-- `left_lim = col_idx * half_img_width`. -/
def leftLim (bigW maxIdx : Nat) : Nat :=
  (adjCol bigW maxIdx / (bigW / 2)) * (bigW / 2)

/-- `right_lim = (col_idx + 1) * half_img_width`. -/
def rightLim (bigW maxIdx : Nat) : Nat :=
  (adjCol bigW maxIdx / (bigW / 2) + 1) * (bigW / 2)

/-- `max_img_row = min(down_lim - 1, row + half_correlation_width + 1)`. -/
def maxImgRow (bigH bigW kw maxIdx : Nat) : Nat :=
  min (downLim bigH bigW maxIdx - 1) (adjRow bigW maxIdx + kw / 2 + 1)

/-- `max_img_col = min(right_lim - 1, col + half_correlation_width + 1)`. -/
def maxImgCol (bigW kw maxIdx : Nat) : Nat :=
  min (rightLim bigW maxIdx - 1) (adjCol bigW maxIdx + kw / 2 + 1)

/-- `min_img_row = max(up_lim, row - half_correlation_width)` (the Python
value can be negative only when it is dominated by `up_lim ≥ 0`, so
truncated subtraction is faithful). -/
def minImgRow (bigH bigW kw maxIdx : Nat) : Nat :=
  max (upLim bigH bigW maxIdx) (adjRow bigW maxIdx - kw / 2)

/-- `min_img_col = max(left_lim, col - half_correlation_width)`. -/
def minImgCol (bigW kw maxIdx : Nat) : Nat :=
  max (leftLim bigW maxIdx) (adjCol bigW maxIdx - kw / 2)

/-- `min_knl_row = half_correlation_width - (row - min_img_row)`. -/
def minKnlRow (bigH bigW kw maxIdx : Nat) : Nat :=
  kw / 2 - (adjRow bigW maxIdx - minImgRow bigH bigW kw maxIdx)

/-- `min_knl_col = half_correlation_width - (col - min_img_col)`. -/
def minKnlCol (bigW kw maxIdx : Nat) : Nat :=
  kw / 2 - (adjCol bigW maxIdx - minImgCol bigW kw maxIdx)

/-- Membership in the clipped correction window. -/
def inSubWindow (bigH bigW kw maxIdx i j : Nat) : Prop :=
  minImgRow bigH bigW kw maxIdx ≤ i ∧ i < maxImgRow bigH bigW kw maxIdx ∧
  minImgCol bigW kw maxIdx ≤ j ∧ j < maxImgCol bigW kw maxIdx

instance (bigH bigW kw maxIdx i j : Nat) : Decidable (inSubWindow bigH bigW kw maxIdx i j) := by
  unfold inSubWindow; exact inferInstance

/-- Phase 1 of `adjust_with_correlation`:
`img[min_img_row:max_img_row, min_img_col:max_img_col] -= max_val * correlation[...]`. -/
def subStep (img : Img) (bigH bigW kw : Nat) (Kf : Nat → Nat → FV) (maxIdx : Nat)
    (maxVal : FV) : Img := fun i j =>
  if inSubWindow bigH bigW kw maxIdx i j then
    fsub (img i j)
      (fmul maxVal (Kf (minKnlRow bigH bigW kw maxIdx + (i - minImgRow bigH bigW kw maxIdx))
                       (minKnlCol bigW kw maxIdx + (j - minImgCol bigW kw maxIdx))))
  else img i j

/-- Phase 2: `inf_indices = numpy.where(window == inf); img[inf_indices] = 0;
img[inf_indices] -= inf`.  Note that `numpy.where` on the window slice yields
window-relative coordinates, which the source then applies to the whole
image, so the write targets are the relative coordinates themselves. -/
def sanInfStep (img : Img) (bigH bigW kw maxIdx : Nat) : Img := fun i j =>
  if i < maxImgRow bigH bigW kw maxIdx - minImgRow bigH bigW kw maxIdx ∧
     j < maxImgCol bigW kw maxIdx - minImgCol bigW kw maxIdx ∧
     feq (img (minImgRow bigH bigW kw maxIdx + i) (minImgCol bigW kw maxIdx + j)) FV.pinf = true
  then fsub (FV.fin 0) FV.pinf
  else img i j

/-- Phase 3: the same for `nan_indices = numpy.where(window == nan)` (an
IEEE comparison that never succeeds). -/
def sanNanStep (img : Img) (bigH bigW kw maxIdx : Nat) : Img := fun i j =>
  if i < maxImgRow bigH bigW kw maxIdx - minImgRow bigH bigW kw maxIdx ∧
     j < maxImgCol bigW kw maxIdx - minImgCol bigW kw maxIdx ∧
     feq (img (minImgRow bigH bigW kw maxIdx + i) (minImgCol bigW kw maxIdx + j)) FV.nan = true
  then fsub (FV.fin 0) FV.pinf
  else img i j

/-- Phase 4: `if is_max_val_layer: img[row, col] -= inf`. -/
def ownStep (img : Img) (bigW maxIdx : Nat) (isMaxValLayer : Bool) : Img := fun i j =>
  if isMaxValLayer = true ∧ i = adjRow bigW maxIdx ∧ j = adjCol bigW maxIdx then
    fsub (img i j) FV.pinf
  else img i j

/-- `Focal.adjust_with_correlation`: the four in-place phases run in source
order on the shared array. -/
def adjust_with_correlation (img : Img) (bigH bigW : Nat) (correlation : Kern)
    (maxIdx : Nat) (maxVal : FV) (isMaxValLayer : Bool) : Img :=
  ownStep
    (sanNanStep
      (sanInfStep (subStep img bigH bigW correlation.w correlation.f maxIdx maxVal)
        bigH bigW correlation.w maxIdx)
      bigH bigW correlation.w maxIdx)
    bigW maxIdx isMaxValLayer

/-! ### The composite tile and the selection loop -/

/-- Zero cells are replaced by the `-inf` sentinel
(`tmp_img[numpy.where(tmp_img == 0)] = -inf`). -/
def replaceZero (v : FV) : FV := if feq v (FV.fin 0) = true then FV.ninf else v

/-- `big_image`: channel `ct` (for `ct < len(spike_images)`) is copied, with
zero cells replaced by `-inf`, into quadrant `(ct / 2, ct % 2)` of an array
of zeros of shape `(2H, 2W)`. -/
def buildBig (imgs : List Img) (H W : Nat) : Img := fun r c =>
  if h : (r / H) * 2 + c / W < imgs.length ∧ r < 2 * H ∧ c < 2 * W then
    replaceZero ((imgs.get ⟨(r / H) * 2 + c / W, h.1⟩) (r % H) (c % W))
  else FV.fin 0

/-- The big image flattened in C (row-major) order, as scanned by
`numpy.argmax`. -/
def bigList (img : Img) (bigH bigW : Nat) : List FV :=
  (List.range (bigH * bigW)).map fun k => img (k / bigW) (k % bigW)

/-- Inner loop of `numpy.argmax`: keep the running maximum `mp` (never
`nan`) found at index `best`; update when `not (v <= mp)`; stop at the
first `nan`, which is considered maximal. -/
def argmaxGo : List FV → FV → Nat → Nat → Nat
  | [], _, _, best => best
  | v :: rest, mp, i, best =>
    if fle v mp = true then argmaxGo rest mp (i + 1) best
    else if v = FV.nan then i
    else argmaxGo rest v (i + 1) i

/-- `numpy.argmax` over a flat list: index of the first occurrence of the
maximum, with `nan` propagated as maximal. -/
def amax : List FV → Nat
  | [] => 0
  | v :: rest => if v = FV.nan then 0 else argmaxGo rest v 1 0

/-- `max_idx = numpy.argmax(big_image)`. -/
def selIdx (img : Img) (bigH bigW : Nat) : Nat := amax (bigList img bigH bigW)

/-- Row of `max_coords = numpy.unravel_index(max_idx, big_shape)`. -/
def selRow (img : Img) (H W : Nat) : Nat := selIdx img (2 * H) (2 * W) / (2 * W)

/-- Column of `max_coords`. -/
def selCol (img : Img) (H W : Nat) : Nat := selIdx img (2 * H) (2 * W) % (2 * W)

/-- `max_val = big_image[max_coords]`. -/
def selVal (img : Img) (H W : Nat) : FV := img (selRow img H W) (selCol img H W)

/-- The loop's break test:
`max_val == inf or max_val == -inf or max_val == nan`. -/
def guardBad (v : FV) : Bool := feq v FV.pinf || feq v FV.ninf || feq v FV.nan

/-- `single_coords`: identity in quadrant 0, otherwise
`global_to_single_coords`. -/
def singleCoords (r c H W : Nat) : Nat × Nat :=
  if r < H ∧ c < W then (r, c) else global_to_single_coords (r, c) (H, W)

/-- The per-spike correction pass: for each `overlap_cell_type` in
`range(len(spike_images))`, adjust the big image with the correlation
`correlations[cell_type][overlap_cell_type]` at the layer-equivalent
global index, marking the max-value layer. -/
def corrections (corr : Nat → Nat → Kern) (H W n : Nat) (ct : Nat) (sc : Nat × Nat)
    (v : FV) (img : Img) : Img :=
  (List.range n).foldl
    (fun im oct =>
      adjust_with_correlation im (2 * H) (2 * W) (corr ct oct)
        (local_coords_to_global_idx sc oct (H, W) (2 * H, 2 * W)) v (decide (oct = ct)))
    img

/-- One iteration of the main FoCal loop: select the global maximum, stop
on a bad sentinel value, otherwise emit the spike and run the correction
pass. -/
def focalBody (corr : Nat → Nat → Kern) (H W n : Nat) (img : Img) :
    Option (Spike × Img) :=
  if guardBad (selVal img H W) = true then none
  else
    some
      (⟨(singleCoords (selRow img H W) (selCol img H W) H W).1 * W +
          (singleCoords (selRow img H W) (selCol img H W) H W).2,
        selVal img H W,
        cell_type_from_global_coords (selRow img H W, selCol img H W) (H, W)⟩,
       corrections corr H W n
         (cell_type_from_global_coords (selRow img H W, selCol img H W) (H, W))
         (singleCoords (selRow img H W) (selCol img H W) H W) (selVal img H W) img)

/-- The main loop, `for count in xrange(max_cycles)`, with early break. -/
def focalLoop (corr : Nat → Nat → Kern) (H W n : Nat) : Nat → Img → List Spike
  | 0, _ => []
  | fuel + 1, img =>
    match focalBody corr H W n img with
    | none => []
    | some (s, img') => s :: focalLoop corr H W n fuel img'

/-- `numpy.sum(img != 0)` over one channel map. -/
def nonzeroCount (img : Img) (H W : Nat) : Nat :=
  ((List.range H).map fun r =>
    ((List.range W).filter fun c => !(feq (img r c) (FV.fin 0))).length).sum

/-- The number of nonzero cells summed across the input maps. -/
def totalNonzero (imgs : List Img) (H W : Nat) : Nat :=
  (imgs.map fun im => nonzeroCount im H W).sum

/-- Python `int(...)`: truncation toward zero of a rational. -/
def ratTrunc (q : ℚ) : Int := q.num.tdiv (q.den : Int)

/-- `max_cycles = numpy.int(spikes_per_unit * max_cycles)`, clipped at 0 by
`xrange`. -/
def budget (imgs : List Img) (H W : Nat) (spikes_per_unit : ℚ) : Nat :=
  (ratTrunc (rmul spikes_per_unit (totalNonzero imgs H W : ℚ))).toNat

/-- `Focal.focal`: build the composite tile and run the greedy loop for at
most `budget` iterations. -/
def focal (imgs : List Img) (H W : Nat) (corr : Nat → Nat → Kern)
    (spikes_per_unit : ℚ) : List Spike :=
  focalLoop corr H W imgs.length (budget imgs H W spikes_per_unit) (buildBig imgs H W)

/-- The composite-tile cell a spike's `(cell_type, local_idx)` pair denotes. -/
def spikeCell (s : Spike) (H W : Nat) : Nat × Nat :=
  (s.local_idx / W + (s.cell_type / 2) * H, s.local_idx % W + (s.cell_type % 2) * W)

/-- A value that is neither `+inf` nor `nan` (the loop invariant satisfied
by every composite-tile cell on valid inputs). -/
def okFV (v : FV) : Prop := v ≠ FV.pinf ∧ v ≠ FV.nan

/-- The composite-tile invariant: every cell is finite or `-inf`. -/
def InvImg (img : Img) : Prop := ∀ i j, okFV (img i j)

/-! ### Concrete instances used by witnesses and counterexamples -/

/-- 4x4 channel map, single nonzero cell of value 10 at (1,1). -/
def c7img0 : Img := fun i j => if i = 1 ∧ j = 1 then FV.fin 10 else FV.fin 0

/-- 4x4 channel map, single nonzero cell of value 5 at (2,2). -/
def c7img1 : Img := fun i j => if i = 2 ∧ j = 2 then FV.fin 5 else FV.fin 0

/-- All-zero correlation kernel of width 3. -/
def zeroKern3 : Kern := ⟨3, fun _ _ => FV.fin 0⟩

/-- All-zero correlation kernel of width 1. -/
def zeroKern1 : Kern := ⟨1, fun _ _ => FV.fin 0⟩

/-- 2x2 channel map, single nonzero cell of value 3 at (0,0). -/
def c3img0 : Img := fun i j => if i = 0 ∧ j = 0 then FV.fin 3 else FV.fin 0

/-- 2x2 channel map, single nonzero cell of value 1 at (0,0). -/
def c3img1 : Img := fun i j => if i = 0 ∧ j = 0 then FV.fin 1 else FV.fin 0

/-- 2x2 channel map, single nonzero cell of value 1 at (0,0). -/
def c3img2 : Img := fun i j => if i = 0 ∧ j = 0 then FV.fin 1 else FV.fin 0

/-- 2x2 all-zero channel map. -/
def c3img3 : Img := fun _ _ => FV.fin 0

/-- Nonnegative 1x1 correlation kernels: entries 2 for the pairs (0,1) and
(0,2), 3 for (1,2), 0 elsewhere. -/
def c3corr : Nat → Nat → Kern := fun i j =>
  if i = 0 ∧ j = 1 then ⟨1, fun _ _ => FV.fin 2⟩
  else if i = 0 ∧ j = 2 then ⟨1, fun _ _ => FV.fin 2⟩
  else if i = 1 ∧ j = 2 then ⟨1, fun _ _ => FV.fin 3⟩
  else ⟨1, fun _ _ => FV.fin 0⟩

/-- Four 1x1 channel maps whose first channel holds a `nan` cell and whose
second holds 3 (so the run performs two iterations). -/
def c5imgs : List Img :=
  [fun _ _ => FV.nan, fun _ _ => FV.fin 3, fun _ _ => FV.fin 0, fun _ _ => FV.fin 0]

/-- Four 1x1 channel maps holding 5, 3, 0, 0. -/
def c9imgs : List Img :=
  [fun _ _ => FV.fin 5, fun _ _ => FV.fin 3, fun _ _ => FV.fin 0, fun _ _ => FV.fin 0]

/-- 4x4 composite tile holding `+inf` at (2,2) (inside quadrant 3) and 3
everywhere else. -/
def c4img : Img := fun i j => if i = 2 ∧ j = 2 then FV.pinf else FV.fin 3

/-- 4x4 composite tile holding `+inf` at (2,2) and 7 everywhere else. -/
def c6imgA : Img := fun i j => if i = 2 ∧ j = 2 then FV.pinf else FV.fin 7

/-- 4x4 composite tile holding `nan` at (2,2) and 7 everywhere else. -/
def c6imgB : Img := fun i j => if i = 2 ∧ j = 2 then FV.nan else FV.fin 7

/-- Four 1x1 channel maps holding 5, 2, 0, 0 (witness instance). -/
def w2imgs : List Img :=
  [fun _ _ => FV.fin 5, fun _ _ => FV.fin 2, fun _ _ => FV.fin 0, fun _ _ => FV.fin 0]

/-- A constant composite tile (witness instance). -/
def w10img : Img := fun _ _ => FV.fin 1

/-! ## Basic lemmas -/

theorem rmul_eq (a b : ℚ) : rmul a b = a * b := (Rat.mul_def a b).symm

theorem rsub_eq (a b : ℚ) : rsub a b = a - b := (Rat.sub_def' a b).symm

/-! ## Claim theorems (concrete runs) -/

/-- C7: on two 4x4 channel maps whose only nonzero cells are 10 at (1,1)
in channel 0 and 5 at (2,2) in channel 1, with all-zero correlation
kernels and `spikes_per_unit = 1`, `focal` returns exactly the sequence
`[{local_idx 5, value 10, channel 0}, {local_idx 10, value 5, channel 1}]`
in that order. -/
theorem c7_concrete_two_channel_run :
    focal [c7img0, c7img1] 4 4 (fun _ _ => zeroKern3) 1 =
      [⟨5, FV.fin 10, 0⟩, ⟨10, FV.fin 5, 1⟩] := by decide

/-- C5 (failing run): a `nan` maximum does not stop the selection loop.
The source's test `max_val == numpy.nan` is an IEEE comparison that never
succeeds, so with a `nan` cell in channel 0 the loop emits a spike carrying
the `nan` value, and even re-emits the same cell on the next iteration,
instead of halting before appending. -/
theorem c5_nan_max_not_halted :
    focal c5imgs 1 1 (fun _ _ => zeroKern1) 1 =
      [⟨0, FV.nan, 0⟩, ⟨0, FV.nan, 0⟩] := by decide

/-- C4 (failing run): a correction targeted at quadrant 3 (spike at global
(2,2) of a 4x4 composite tile) rewrites cell (0,0) — a cell of quadrant 0,
outside the target quadrant — from 3 to `-inf`, because the sanitization
step applies window-relative `numpy.where` coordinates to the full image. -/
theorem c4_correction_escapes_quadrant :
    adjust_with_correlation c4img 4 4 zeroKern3 10 (FV.fin 1) false 0 0 = FV.ninf ∧
    c4img 0 0 = FV.fin 3 := by decide

/-- C6 (failing run): after the subtraction, the `+inf` cell at (2,2)
inside the corrected window survives while the unrelated cell (0,0) outside
the window is driven to `-inf` (window-relative indices applied to the full
image); and a `nan` cell inside the window survives sanitization because
the `== nan` comparison never succeeds. -/
theorem c6_sanitization_misses_window :
    (adjust_with_correlation c6imgA 4 4 zeroKern3 10 (FV.fin 1) false 2 2 = FV.pinf ∧
     adjust_with_correlation c6imgA 4 4 zeroKern3 10 (FV.fin 1) false 0 0 = FV.ninf) ∧
    adjust_with_correlation c6imgB 4 4 zeroKern3 10 (FV.fin 1) false 2 2 = FV.nan := by
  decide

/-- C3 (counterexample): with valid nonnegative maps and nonnegative
correlation kernels, the emitted values are 3, -5, 10 — not non-increasing:
after values go negative, the subtraction `c - max*corr` raises a cell
above the current maximum. -/
theorem c3_counterexample :
    ¬ List.Pairwise (fun s t : Spike => fle t.value s.value = true)
        (focal [c3img0, c3img1, c3img2, c3img3] 2 2 c3corr 1) := by decide

/-- C9 (counterexample): `spikes_per_unit = 2` lies outside [0,1], yet
`focal` performs no validation: the tile is built, the loop runs and two
spikes are emitted (the loop then stops early on the `-inf` sentinel). -/
theorem c9_counterexample :
    (1 : ℚ) < 2 ∧
    focal c9imgs 1 1 (fun _ _ => zeroKern1) 2 =
      [⟨0, FV.fin 5, 0⟩, ⟨0, FV.fin 3, 1⟩] := by decide

/-! ## Budget and loop-length lemmas -/

theorem ratTrunc_eq_floor (q : ℚ) (h : 0 ≤ q) : ratTrunc q = ⌊q⌋ := by
  rw [ratTrunc, Rat.floor_def, Int.tdiv_eq_ediv (Rat.num_nonneg.mpr h) (by positivity)]

theorem ratTrunc_zero : ratTrunc 0 = 0 := rfl

theorem focalLoop_length_le (corr : Nat → Nat → Kern) (H W n : Nat) :
    ∀ (fuel : Nat) (img : Img), (focalLoop corr H W n fuel img).length ≤ fuel := by
  intro fuel
  induction fuel with
  | zero => intro img; simp [focalLoop]
  | succ k ih =>
    intro img
    rw [focalLoop]
    cases hb : focalBody corr H W n img with
    | none => simp
    | some p => simpa using ih p.2

/-- C1: for every valid input (`spikes_per_unit` in [0,1]), the output
length is between 0 and `budget` inclusive, `budget ≤ totalNonzero`, and
`spikes_per_unit = 0` yields the empty sequence. -/
theorem c1_focal_length_bounds (imgs : List Img) (H W : Nat) (corr : Nat → Nat → Kern)
    (spu : ℚ) (h0 : 0 ≤ spu) (h1 : spu ≤ 1) :
    (focal imgs H W corr spu).length ≤ budget imgs H W spu ∧
    budget imgs H W spu ≤ totalNonzero imgs H W ∧
    (spu = 0 → focal imgs H W corr spu = []) := by
  refine ⟨focalLoop_length_le corr H W imgs.length _ _, ?_, ?_⟩
  · have ht : (0 : ℚ) ≤ (totalNonzero imgs H W : ℚ) := by positivity
    have hx : 0 ≤ spu * (totalNonzero imgs H W : ℚ) := mul_nonneg h0 ht
    rw [budget, rmul_eq, ratTrunc_eq_floor _ hx]
    rw [Int.toNat_le]
    calc ⌊spu * (totalNonzero imgs H W : ℚ)⌋
        ≤ ⌊((totalNonzero imgs H W : ℚ))⌋ := by
          apply Int.floor_le_floor
          nlinarith
      _ = (totalNonzero imgs H W : ℤ) := Int.floor_natCast _
  · intro hz
    subst hz
    have hb : budget imgs H W 0 = 0 := by
      rw [budget, rmul_eq, zero_mul, ratTrunc_zero]
      rfl
    rw [focal, hb]
    rfl

/-- C1 witness: a concrete valid instance (four 1x1 maps, two of them
nonzero, `spikes_per_unit = 1/2`). -/
theorem c1_focal_length_bounds_witness :
    ((0 : ℚ) ≤ mkRat 1 2 ∧ mkRat 1 2 ≤ 1) ∧
    ((focal w2imgs 1 1 (fun _ _ => zeroKern1) (mkRat 1 2)).length ≤
        budget w2imgs 1 1 (mkRat 1 2) ∧
      budget w2imgs 1 1 (mkRat 1 2) ≤ totalNonzero w2imgs 1 1 ∧
      (mkRat 1 2 = 0 → focal w2imgs 1 1 (fun _ _ => zeroKern1) (mkRat 1 2) = [])) :=
  ⟨⟨by decide, by decide⟩,
   c1_focal_length_bounds w2imgs 1 1 (fun _ _ => zeroKern1) (mkRat 1 2)
     (by decide) (by decide)⟩

/-! ## Coordinate round-trip (C8) -/

/-- C8: flattening a local coordinate through
`local_coords_to_global_idx`, unravelling with row stride `2W`, and
reducing with `global_to_single_coords` returns the original coordinate,
for every channel in {0,1,2,3}. -/
theorem c8_coord_roundtrip (ct r w H W : Nat) (hct : ct < 4) (hr : r < H) (hw : w < W) :
    global_to_single_coords
      (local_coords_to_global_idx (r, w) ct (H, W) (2 * H, 2 * W) / (2 * W),
       local_coords_to_global_idx (r, w) ct (H, W) (2 * H, 2 * W) % (2 * W))
      (H, W) = (r, w) := by
  have hH0 : 0 < H := Nat.pos_of_ne_zero (by omega)
  have hW0 : 0 < W := Nat.pos_of_ne_zero (by omega)
  have hm2 : ct % 2 ≤ 1 := by omega
  have hB : w + ct % 2 * W < 2 * W := by
    have : ct % 2 * W ≤ 1 * W := Nat.mul_le_mul_right W hm2
    omega
  have hidx : local_coords_to_global_idx (r, w) ct (H, W) (2 * H, 2 * W) =
      (2 * W) * (r + ct / 2 * H) + (w + ct % 2 * W) := by
    simp [local_coords_to_global_idx, Nat.mul_comm]
  have hdiv : local_coords_to_global_idx (r, w) ct (H, W) (2 * H, 2 * W) / (2 * W) =
      r + ct / 2 * H := by
    rw [hidx, Nat.mul_add_div (by omega), Nat.div_eq_of_lt hB, Nat.add_zero]
  have hmod : local_coords_to_global_idx (r, w) ct (H, W) (2 * H, 2 * W) % (2 * W) =
      w + ct % 2 * W := by
    rw [hidx, Nat.mul_add_mod, Nat.mod_eq_of_lt hB]
  rw [hdiv, hmod]
  have hA : (r + ct / 2 * H) / H = ct / 2 := by
    rw [Nat.add_mul_div_right _ _ hH0, Nat.div_eq_of_lt hr, Nat.zero_add]
  have hBq : (w + ct % 2 * W) / W = ct % 2 := by
    rw [Nat.add_mul_div_right _ _ hW0, Nat.div_eq_of_lt hw, Nat.zero_add]
  simp only [global_to_single_coords, hA, hBq]
  rw [Nat.mul_comm H (ct / 2), Nat.mul_comm W (ct % 2), Nat.add_sub_cancel,
    Nat.add_sub_cancel]

/-- C8 witness: channel 3, coordinate (1,2) in a 2x3 map. -/
theorem c8_coord_roundtrip_witness :
    (3 < 4 ∧ 1 < 2 ∧ 2 < 3) ∧
    global_to_single_coords
      (local_coords_to_global_idx (1, 2) 3 (2, 3) (2 * 2, 2 * 3) / (2 * 3),
       local_coords_to_global_idx (1, 2) 3 (2, 3) (2 * 2, 2 * 3) % (2 * 3))
      (2, 3) = (1, 2) :=
  ⟨⟨by decide, by decide, by decide⟩,
   c8_coord_roundtrip 3 1 2 2 3 (by decide) (by decide) (by decide)⟩

/-! ## The correction window spares the quadrant's last row and column (C10) -/

theorem downLim_eq (bigH bigW maxIdx : Nat) :
    downLim bigH bigW maxIdx = upLim bigH bigW maxIdx + bigH / 2 := by
  simp [downLim, upLim, Nat.succ_mul]

theorem rightLim_eq (bigW maxIdx : Nat) :
    rightLim bigW maxIdx = leftLim bigW maxIdx + bigW / 2 := by
  simp [rightLim, leftLim, Nat.succ_mul]

/-- C10: a cell on the target quadrant's bottom row or rightmost column is
never touched by `adjust_with_correlation`'s subtraction or sanitization
(the window's exclusive bounds are `min(quadrant_end - 1, ...)`); only the
own-cell marking can modify such a cell. -/
theorem c10_quadrant_edge_untouched (img : Img) (bigH bigW : Nat) (K : Kern)
    (maxIdx : Nat) (maxVal : FV) (isML : Bool) (i j : Nat)
    (hedge : (i = downLim bigH bigW maxIdx - 1 ∧
              leftLim bigW maxIdx ≤ j ∧ j < rightLim bigW maxIdx) ∨
             (j = rightLim bigW maxIdx - 1 ∧
              upLim bigH bigW maxIdx ≤ i ∧ i < downLim bigH bigW maxIdx))
    (hown : ¬(isML = true ∧ i = adjRow bigW maxIdx ∧ j = adjCol bigW maxIdx)) :
    adjust_with_correlation img bigH bigW K maxIdx maxVal isML i j = img i j := by
  have hminr : maxImgRow bigH bigW K.w maxIdx ≤ downLim bigH bigW maxIdx - 1 :=
    min_le_left _ _
  have hminc : maxImgCol bigW K.w maxIdx ≤ rightLim bigW maxIdx - 1 :=
    min_le_left _ _
  have hupr : upLim bigH bigW maxIdx ≤ minImgRow bigH bigW K.w maxIdx :=
    le_max_left _ _
  have hupc : leftLim bigW maxIdx ≤ minImgCol bigW K.w maxIdx :=
    le_max_left _ _
  have hdl := downLim_eq bigH bigW maxIdx
  have hrl := rightLim_eq bigW maxIdx
  have hwin : ¬ inSubWindow bigH bigW K.w maxIdx i j := by
    intro hw
    rcases hw with ⟨-, h2, -, h4⟩
    rcases hedge with ⟨hi, -, -⟩ | ⟨hj, -, -⟩
    · omega
    · omega
  have hsan : ¬ (i < maxImgRow bigH bigW K.w maxIdx - minImgRow bigH bigW K.w maxIdx ∧
                 j < maxImgCol bigW K.w maxIdx - minImgCol bigW K.w maxIdx) := by
    rcases hedge with ⟨hi, hj1, hj2⟩ | ⟨hj, hi1, hi2⟩
    · intro h
      have h1 := h.1
      omega
    · intro h
      have h2 := h.2
      omega
  simp only [adjust_with_correlation, ownStep, sanNanStep, sanInfStep, subStep]
  rw [if_neg hown, if_neg, if_neg, if_neg hwin]
  · intro h
    exact hsan ⟨h.1, h.2.1⟩
  · intro h
    exact hsan ⟨h.1, h.2.1⟩

/-- C10 witness: spike at global (2,2) of a 4x4 composite (quadrant 3,
whose bottom row is 3); the cell (3,2) on that row is untouched. -/
theorem c10_quadrant_edge_untouched_witness :
    ((3 = downLim 4 4 10 - 1 ∧ leftLim 4 10 ≤ 2 ∧ 2 < rightLim 4 10) ∨
     (2 = rightLim 4 10 - 1 ∧ upLim 4 4 10 ≤ 3 ∧ 3 < downLim 4 4 10)) ∧
    adjust_with_correlation w10img 4 4 zeroKern3 10 (FV.fin 1) false 3 2 = w10img 3 2 :=
  ⟨Or.inl (by decide),
   c10_quadrant_edge_untouched w10img 4 4 zeroKern3 10 (FV.fin 1) false 3 2
     (Or.inl (by decide)) (by decide)⟩

/-! ## No validation of spikes_per_unit (C9, amended) -/

theorem ratTrunc_nonpos (q : ℚ) (h : q ≤ 0) : ratTrunc q ≤ 0 := by
  have hn : q.num ≤ 0 := by
    rwa [Rat.num_nonpos]
  rw [ratTrunc]
  have := Int.tdiv_nonneg (Int.neg_nonneg_of_nonpos hn) (Int.ofNat_nonneg q.den)
  rw [Int.neg_tdiv] at this
  omega

/-- C9 (amended): `focal` performs no validation of `spikes_per_unit`: a
value outside [0,1] is not rejected.  A negative value yields the empty
sequence (the truncated budget is nonpositive), and a value above 1 builds
the tile and runs the loop, which emits spikes and stops early on the
`-inf` sentinel guard. -/
theorem c9_no_validation :
    (∀ (imgs : List Img) (H W : Nat) (corr : Nat → Nat → Kern) (spu : ℚ),
      spu < 0 → focal imgs H W corr spu = []) ∧
    focal c9imgs 1 1 (fun _ _ => zeroKern1) 2 =
      [⟨0, FV.fin 5, 0⟩, ⟨0, FV.fin 3, 1⟩] := by
  constructor
  · intro imgs H W corr spu hneg
    have hb : budget imgs H W spu = 0 := by
      rw [budget, rmul_eq]
      have hx : spu * (totalNonzero imgs H W : ℚ) ≤ 0 :=
        mul_nonpos_of_nonpos_of_nonneg (le_of_lt hneg) (by positivity)
      have := ratTrunc_nonpos _ hx
      omega
    rw [focal, hb]
    rfl
  · decide

/-- C9 witness: instantiation of the universally quantified conjunct at a
concrete negative configuration. -/
theorem c9_no_validation_witness :
    (-1 : ℚ) < 0 ∧ focal c9imgs 1 1 (fun _ _ => zeroKern1) (-1) = [] :=
  ⟨by decide, c9_no_validation.1 c9imgs 1 1 (fun _ _ => zeroKern1) (-1) (by decide)⟩

/-! ## Order lemmas for extended values -/

theorem feq_nan_right (v : FV) : feq v FV.nan = false := by cases v <;> rfl

theorem fle_refl (v : FV) (h : v ≠ FV.nan) : fle v v = true := by
  cases v <;> simp_all [fle]

theorem fle_nan_right (v : FV) : fle v FV.nan = false := by cases v <;> rfl

theorem fle_ninf_left (v : FV) (h : v ≠ FV.nan) : fle FV.ninf v = true := by
  cases v <;> simp_all [fle]

theorem fle_no_nan_left {a b : FV} (h : fle a b = true) : a ≠ FV.nan := by
  cases a <;> simp_all [fle]

theorem fle_no_nan_right {a b : FV} (h : fle a b = true) : b ≠ FV.nan := by
  cases b <;> simp_all [fle_nan_right]

theorem fle_trans {a b c : FV} (h1 : fle a b = true) (h2 : fle b c = true) :
    fle a c = true := by
  cases a <;> cases b <;> cases c <;> simp_all [fle] <;> exact le_trans h1 h2

theorem fle_total {a b : FV} (ha : a ≠ FV.nan) (hb : b ≠ FV.nan) :
    fle a b = true ∨ fle b a = true := by
  cases a <;> cases b <;> simp_all [fle] <;> exact le_total _ _

/-! ## Specification of `numpy.argmax` -/

theorem argmaxGo_spec (f : Nat → FV) :
    ∀ (l : List FV) (mp : FV) (i best : Nat),
      (∀ k (hk : k < l.length), l.get ⟨k, hk⟩ = f (i + k)) →
      (∀ k (hk : k < l.length), l.get ⟨k, hk⟩ ≠ FV.nan) →
      mp ≠ FV.nan → f best = mp →
      f (argmaxGo l mp i best) ≠ FV.nan ∧
      fle mp (f (argmaxGo l mp i best)) = true ∧
      (∀ k (hk : k < l.length), fle (l.get ⟨k, hk⟩) (f (argmaxGo l mp i best)) = true) ∧
      (argmaxGo l mp i best = best ∨ argmaxGo l mp i best < i + l.length) := by
  intro l
  induction l with
  | nil =>
    intro mp i best _ _ hmp hbest
    refine ⟨hbest ▸ hmp, ?_, ?_, Or.inl rfl⟩
    · rw [argmaxGo, hbest]
      exact fle_refl mp hmp
    · intro k hk
      exact absurd hk (by simp at hk)
  | cons v rest ih =>
    intro mp i best hf hnn hmp hbest
    have hv : v = f i := by
      have := hf 0 (by simp)
      simpa using this
    have hvnn : v ≠ FV.nan := hnn 0 (by simp)
    have hf' : ∀ k (hk : k < rest.length), rest.get ⟨k, hk⟩ = f (i + 1 + k) := by
      intro k hk
      have := hf (k + 1) (by simpa using Nat.succ_lt_succ hk)
      simpa [Nat.add_assoc, Nat.add_comm 1 k] using this
    have hnn' : ∀ k (hk : k < rest.length), rest.get ⟨k, hk⟩ ≠ FV.nan := by
      intro k hk
      have := hnn (k + 1) (by simpa using Nat.succ_lt_succ hk)
      simpa using this
    by_cases h : fle v mp = true
    · have hrec := ih mp (i + 1) best hf' hnn' hmp hbest
      have hgo : argmaxGo (v :: rest) mp i best = argmaxGo rest mp (i + 1) best := by
        rw [argmaxGo, if_pos h]
      rw [hgo]
      refine ⟨hrec.1, hrec.2.1, ?_, ?_⟩
      · intro k hk
        match k with
        | 0 =>
          have : (v :: rest).get ⟨0, hk⟩ = v := rfl
          rw [this]
          exact fle_trans h hrec.2.1
        | k' + 1 =>
          have hk' : k' < rest.length := by simpa using hk
          have : (v :: rest).get ⟨k' + 1, hk⟩ = rest.get ⟨k', hk'⟩ := rfl
          rw [this]
          exact hrec.2.2.1 k' hk'
      · rcases hrec.2.2.2 with hb | hb
        · exact Or.inl hb
        · refine Or.inr ?_
          simp only [List.length_cons]
          omega
    · have hgo : argmaxGo (v :: rest) mp i best = argmaxGo rest v (i + 1) i := by
        rw [argmaxGo, if_neg h, if_neg hvnn]
      have hrec := ih v (i + 1) i hf' hnn' hvnn hv.symm
      rw [hgo]
      have hmple : fle mp v = true := by
        rcases fle_total hvnn hmp with hh | hh
        · exact absurd hh h
        · exact hh
      refine ⟨hrec.1, fle_trans hmple hrec.2.1, ?_, ?_⟩
      · intro k hk
        match k with
        | 0 =>
          have : (v :: rest).get ⟨0, hk⟩ = v := rfl
          rw [this]
          exact hrec.2.1
        | k' + 1 =>
          have hk' : k' < rest.length := by simpa using hk
          have : (v :: rest).get ⟨k' + 1, hk⟩ = rest.get ⟨k', hk'⟩ := rfl
          rw [this]
          exact hrec.2.2.1 k' hk'
      · refine Or.inr ?_
        simp only [List.length_cons]
        rcases hrec.2.2.2 with hb | hb
        · omega
        · omega

theorem amax_spec (f : Nat → FV) (N : Nat) (hN : 0 < N)
    (hnn : ∀ k, k < N → f k ≠ FV.nan) :
    amax ((List.range N).map f) < N ∧
    ∀ k, k < N → fle (f k) (f (amax ((List.range N).map f))) = true := by
  obtain ⟨m, rfl⟩ : ∃ m, N = m + 1 := ⟨N - 1, by omega⟩
  have hdec : (List.range (m + 1)).map f = f 0 :: (List.range m).map (fun k => f (k + 1)) := by
    rw [List.range_succ_eq_map]
    simp [Function.comp]
  have hf0 : f 0 ≠ FV.nan := hnn 0 (by omega)
  have hamax : amax ((List.range (m + 1)).map f) =
      argmaxGo ((List.range m).map (fun k => f (k + 1))) (f 0) 1 0 := by
    rw [hdec, amax, if_neg hf0]
  set L := (List.range m).map (fun k => f (k + 1)) with hL
  have hlen : L.length = m := by simp [hL]
  have hfL : ∀ k (hk : k < L.length), L.get ⟨k, hk⟩ = f (1 + k) := by
    intro k hk
    simp [hL, Nat.add_comm 1 k]
  have hnnL : ∀ k (hk : k < L.length), L.get ⟨k, hk⟩ ≠ FV.nan := by
    intro k hk
    rw [hfL k hk]
    exact hnn (1 + k) (by omega)
  have hspec := argmaxGo_spec f L (f 0) 1 0 hfL hnnL hf0 rfl
  rw [hamax]
  constructor
  · rcases hspec.2.2.2 with hb | hb
    · omega
    · omega
  · intro k hk
    match k with
    | 0 => exact hspec.2.1
    | k' + 1 =>
      have hk' : k' < L.length := by omega
      have := hspec.2.2.1 k' hk'
      rwa [hfL k' hk', Nat.add_comm 1 k'] at this

/-! ## The selected maximum -/

theorem sel_spec (img : Img) (H W : Nat) (hH : 0 < H) (hW : 0 < W)
    (hinv : InvImg img) :
    selRow img H W < 2 * H ∧ selCol img H W < 2 * W ∧
    ∀ i j, i < 2 * H → j < 2 * W → fle (img i j) (selVal img H W) = true := by
  have hN : 0 < 2 * H * (2 * W) := by positivity
  have hnn : ∀ k, k < 2 * H * (2 * W) → img (k / (2 * W)) (k % (2 * W)) ≠ FV.nan := by
    intro k _
    exact (hinv _ _).2
  have hspec := amax_spec (fun k => img (k / (2 * W)) (k % (2 * W))) (2 * H * (2 * W)) hN hnn
  have hsel : selIdx img (2 * H) (2 * W) =
      amax ((List.range (2 * H * (2 * W))).map fun k => img (k / (2 * W)) (k % (2 * W))) := rfl
  have hlt : selIdx img (2 * H) (2 * W) < 2 * H * (2 * W) := by rw [hsel]; exact hspec.1
  refine ⟨?_, ?_, ?_⟩
  · rw [selRow, Nat.div_lt_iff_lt_mul (by omega)]
    omega
  · rw [selCol]
    exact Nat.mod_lt _ (by omega)
  · intro i j hi hj
    have hstep : i * (2 * W) + j < (i + 1) * (2 * W) := by
      have hsm : (i + 1) * (2 * W) = i * (2 * W) + 2 * W := Nat.succ_mul i (2 * W)
      omega
    have hk : i * (2 * W) + j < 2 * H * (2 * W) :=
      Nat.lt_of_lt_of_le hstep (Nat.mul_le_mul_right _ hi)
    have hdiv : (i * (2 * W) + j) / (2 * W) = i := by
      rw [Nat.mul_comm i (2 * W), Nat.mul_add_div (by omega), Nat.div_eq_of_lt hj,
        Nat.add_zero]
    have hmod : (i * (2 * W) + j) % (2 * W) = j := by
      rw [Nat.mul_comm i (2 * W), Nat.mul_add_mod, Nat.mod_eq_of_lt hj]
    have hle := hspec.2 (i * (2 * W) + j) hk
    simp only at hle
    rw [hdiv, hmod] at hle
    rw [selVal, selRow, selCol, hsel]
    exact hle

/-! ## Values produced by the correction phases -/

theorem okFV_cases {v : FV} (h : okFV v) : v = FV.ninf ∨ ∃ q, v = FV.fin q := by
  cases v with
  | fin q => exact Or.inr ⟨q, rfl⟩
  | pinf => exact absurd rfl h.1
  | ninf => exact Or.inl rfl
  | nan => exact absurd rfl h.2

theorem okFV_ninf : okFV FV.ninf := ⟨by simp, by simp⟩

theorem okFV_fin (q : ℚ) : okFV (FV.fin q) := ⟨by simp, by simp⟩

theorem guard_false_fin {v : FV} (hok : okFV v) (hg : guardBad v = false) :
    ∃ a, v = FV.fin a := by
  rcases okFV_cases hok with rfl | ⟨a, rfl⟩
  · exact absurd hg (by simp [guardBad, feq])
  · exact ⟨a, rfl⟩

theorem fsub_okFV_pinf {v : FV} (h : okFV v) : fsub v FV.pinf = FV.ninf := by
  rcases okFV_cases h with rfl | ⟨q, rfl⟩ <;> rfl

theorem subStep_okFV (img : Img) (bigH bigW kw : Nat) (Kf : Nat → Nat → FV) (maxIdx : Nat)
    (a : ℚ) (hK : ∀ x y, ∃ q, Kf x y = FV.fin q) (hinv : InvImg img) :
    InvImg (subStep img bigH bigW kw Kf maxIdx (FV.fin a)) := by
  intro i j
  simp only [subStep]
  split
  · obtain ⟨q, hq⟩ := hK (minKnlRow bigH bigW kw maxIdx + (i - minImgRow bigH bigW kw maxIdx))
      (minKnlCol bigW kw maxIdx + (j - minImgCol bigW kw maxIdx))
    rw [hq]
    rcases okFV_cases (hinv i j) with h | ⟨c, hc⟩
    · rw [h]
      exact okFV_ninf
    · rw [hc]
      exact okFV_fin _
  · exact hinv i j

theorem subStep_ninf (img : Img) (bigH bigW kw : Nat) (Kf : Nat → Nat → FV) (maxIdx : Nat)
    (a : ℚ) (hK : ∀ x y, ∃ q, Kf x y = FV.fin q) (i j : Nat) (h : img i j = FV.ninf) :
    subStep img bigH bigW kw Kf maxIdx (FV.fin a) i j = FV.ninf := by
  simp only [subStep]
  split
  · obtain ⟨q, hq⟩ := hK (minKnlRow bigH bigW kw maxIdx + (i - minImgRow bigH bigW kw maxIdx))
      (minKnlCol bigW kw maxIdx + (j - minImgCol bigW kw maxIdx))
    rw [hq, h]
    rfl
  · exact h

theorem subStep_le (img : Img) (bigH bigW kw : Nat) (Kf : Nat → Nat → FV) (maxIdx : Nat)
    (a : ℚ) (ha : 0 ≤ a) (hK : ∀ x y, ∃ q, 0 ≤ q ∧ Kf x y = FV.fin q) (hinv : InvImg img)
    (i j : Nat) :
    fle (subStep img bigH bigW kw Kf maxIdx (FV.fin a) i j) (img i j) = true := by
  simp only [subStep]
  split
  · obtain ⟨q, hq0, hq⟩ := hK (minKnlRow bigH bigW kw maxIdx + (i - minImgRow bigH bigW kw maxIdx))
      (minKnlCol bigW kw maxIdx + (j - minImgCol bigW kw maxIdx))
    rw [hq]
    rcases okFV_cases (hinv i j) with h | ⟨c, hc⟩
    · rw [h]
      rfl
    · rw [hc]
      show fle (FV.fin (rsub c (rmul a q))) (FV.fin c) = true
      rw [rsub_eq, rmul_eq]
      simp only [fle, decide_eq_true_eq]
      nlinarith
  · exact fle_refl _ (hinv i j).2

theorem sanInfStep_okFV (img : Img) (bigH bigW kw maxIdx : Nat) (hinv : InvImg img) :
    InvImg (sanInfStep img bigH bigW kw maxIdx) := by
  intro i j
  simp only [sanInfStep]
  split
  · exact okFV_ninf
  · exact hinv i j

theorem sanInfStep_ninf (img : Img) (bigH bigW kw maxIdx : Nat) (i j : Nat)
    (h : img i j = FV.ninf) : sanInfStep img bigH bigW kw maxIdx i j = FV.ninf := by
  simp only [sanInfStep]
  split
  · rfl
  · exact h

theorem sanInfStep_le (img : Img) (bigH bigW kw maxIdx : Nat) (hinv : InvImg img)
    (i j : Nat) : fle (sanInfStep img bigH bigW kw maxIdx i j) (img i j) = true := by
  simp only [sanInfStep]
  split
  · exact fle_ninf_left _ (hinv i j).2
  · exact fle_refl _ (hinv i j).2

theorem sanNanStep_eq (img : Img) (bigH bigW kw maxIdx : Nat) (i j : Nat) :
    sanNanStep img bigH bigW kw maxIdx i j = img i j := by
  simp only [sanNanStep]
  rw [if_neg]
  rintro ⟨-, -, h⟩
  rw [feq_nan_right] at h
  exact Bool.false_ne_true h

theorem ownStep_okFV (img : Img) (bigW maxIdx : Nat) (isML : Bool) (hinv : InvImg img) :
    InvImg (ownStep img bigW maxIdx isML) := by
  intro i j
  simp only [ownStep]
  split
  · rw [fsub_okFV_pinf (hinv i j)]
    exact okFV_ninf
  · exact hinv i j

theorem ownStep_ninf (img : Img) (bigW maxIdx : Nat) (isML : Bool) (i j : Nat)
    (h : img i j = FV.ninf) : ownStep img bigW maxIdx isML i j = FV.ninf := by
  simp only [ownStep]
  split
  · rw [h]
    rfl
  · exact h

theorem ownStep_le (img : Img) (bigW maxIdx : Nat) (isML : Bool) (hinv : InvImg img)
    (i j : Nat) : fle (ownStep img bigW maxIdx isML i j) (img i j) = true := by
  simp only [ownStep]
  split
  · rw [fsub_okFV_pinf (hinv i j)]
    exact fle_ninf_left _ (hinv i j).2
  · exact fle_refl _ (hinv i j).2

theorem ownStep_marks (img : Img) (bigW maxIdx : Nat) (hok : okFV (img (adjRow bigW maxIdx) (adjCol bigW maxIdx))) :
    ownStep img bigW maxIdx true (adjRow bigW maxIdx) (adjCol bigW maxIdx) = FV.ninf := by
  simp only [ownStep]
  rw [if_pos (by simp)]
  exact fsub_okFV_pinf hok

/-! ## Invariants of one full correction call -/

theorem adjust_okFV (img : Img) (bigH bigW : Nat) (K : Kern) (maxIdx : Nat) (a : ℚ)
    (isML : Bool) (hK : ∀ x y, ∃ q, K.f x y = FV.fin q) (hinv : InvImg img) :
    InvImg (adjust_with_correlation img bigH bigW K maxIdx (FV.fin a) isML) := by
  rw [adjust_with_correlation]
  apply ownStep_okFV
  intro i j
  rw [sanNanStep_eq]
  exact sanInfStep_okFV _ _ _ _ _ (subStep_okFV _ _ _ _ _ _ _ hK hinv) i j

theorem adjust_ninf (img : Img) (bigH bigW : Nat) (K : Kern) (maxIdx : Nat) (a : ℚ)
    (isML : Bool) (hK : ∀ x y, ∃ q, K.f x y = FV.fin q) (i j : Nat)
    (h : img i j = FV.ninf) :
    adjust_with_correlation img bigH bigW K maxIdx (FV.fin a) isML i j = FV.ninf := by
  rw [adjust_with_correlation]
  apply ownStep_ninf
  rw [sanNanStep_eq]
  apply sanInfStep_ninf
  exact subStep_ninf _ _ _ _ _ _ _ hK _ _ h

theorem adjust_le (img : Img) (bigH bigW : Nat) (K : Kern) (maxIdx : Nat) (a : ℚ)
    (isML : Bool) (ha : 0 ≤ a) (hK : ∀ x y, ∃ q, 0 ≤ q ∧ K.f x y = FV.fin q)
    (hinv : InvImg img) (i j : Nat) :
    fle (adjust_with_correlation img bigH bigW K maxIdx (FV.fin a) isML i j) (img i j) =
      true := by
  have hKw : ∀ x y, ∃ q, K.f x y = FV.fin q := fun x y => ⟨(hK x y).choose, (hK x y).choose_spec.2⟩
  have hinv1 : InvImg (subStep img bigH bigW K.w K.f maxIdx (FV.fin a)) :=
    subStep_okFV _ _ _ _ _ _ _ hKw hinv
  have hinv2 : InvImg (sanInfStep (subStep img bigH bigW K.w K.f maxIdx (FV.fin a))
      bigH bigW K.w maxIdx) := sanInfStep_okFV _ _ _ _ _ hinv1
  have hinv3 : InvImg (sanNanStep (sanInfStep (subStep img bigH bigW K.w K.f maxIdx
      (FV.fin a)) bigH bigW K.w maxIdx) bigH bigW K.w maxIdx) := by
    intro x y
    rw [sanNanStep_eq]
    exact hinv2 x y
  rw [adjust_with_correlation]
  have h4 := ownStep_le _ bigW maxIdx isML hinv3 i j
  rw [sanNanStep_eq] at h4
  have h2 := sanInfStep_le _ bigH bigW K.w maxIdx hinv1 i j
  have h1 := subStep_le img bigH bigW K.w K.f maxIdx a ha hK hinv i j
  have h4' : fle (ownStep (sanNanStep (sanInfStep (subStep img bigH bigW K.w K.f maxIdx
      (FV.fin a)) bigH bigW K.w maxIdx) bigH bigW K.w maxIdx) bigW maxIdx isML i j)
      (sanInfStep (subStep img bigH bigW K.w K.f maxIdx (FV.fin a)) bigH bigW K.w maxIdx
        i j) = true := by
    have heq : ownStep (sanNanStep (sanInfStep (subStep img bigH bigW K.w K.f maxIdx
        (FV.fin a)) bigH bigW K.w maxIdx) bigH bigW K.w maxIdx) bigW maxIdx isML i j =
        ownStep (sanInfStep (subStep img bigH bigW K.w K.f maxIdx (FV.fin a)) bigH bigW
          K.w maxIdx) bigW maxIdx isML i j := by
      simp only [ownStep]
      rw [sanNanStep_eq]
    rw [heq]
    exact ownStep_le _ bigW maxIdx isML hinv2 i j
  exact fle_trans h4' (fle_trans h2 h1)

theorem adjust_own (img : Img) (bigH bigW : Nat) (K : Kern) (maxIdx : Nat) (a : ℚ)
    (hK : ∀ x y, ∃ q, K.f x y = FV.fin q) (hinv : InvImg img) (r c : Nat)
    (hidx : maxIdx = r * bigW + c) (hc : c < bigW) :
    adjust_with_correlation img bigH bigW K maxIdx (FV.fin a) true r c = FV.ninf := by
  have hrow : adjRow bigW maxIdx = r := by
    rw [adjRow, idx2coord, hidx, Nat.mul_comm r bigW, Nat.mul_add_div (by omega),
      Nat.div_eq_of_lt hc, Nat.add_zero]
  have hcol : adjCol bigW maxIdx = c := by
    rw [adjCol, idx2coord, hidx, Nat.mul_comm r bigW, Nat.mul_add_mod, Nat.mod_eq_of_lt hc]
  have hinv3 : InvImg (sanNanStep (sanInfStep (subStep img bigH bigW K.w K.f maxIdx
      (FV.fin a)) bigH bigW K.w maxIdx) bigH bigW K.w maxIdx) := by
    intro x y
    rw [sanNanStep_eq]
    exact sanInfStep_okFV _ _ _ _ _ (subStep_okFV _ _ _ _ _ _ _ hK hinv) x y
  rw [adjust_with_correlation, ← hrow, ← hcol]
  exact ownStep_marks _ bigW maxIdx (hinv3 _ _)

/-! ## Invariants of the per-spike correction pass -/

theorem foldl_adjust_okFV (corr : Nat → Nat → Kern) (H W : Nat) (ct : Nat)
    (sc : Nat × Nat) (a : ℚ)
    (hK : ∀ u v x y, ∃ q : ℚ, (corr u v).f x y = FV.fin q) :
    ∀ (l : List Nat) (img : Img), InvImg img →
      InvImg (l.foldl
        (fun im oct => adjust_with_correlation im (2 * H) (2 * W) (corr ct oct)
          (local_coords_to_global_idx sc oct (H, W) (2 * H, 2 * W)) (FV.fin a)
          (decide (oct = ct))) img) := by
  intro l
  induction l with
  | nil => intro img hinv; exact hinv
  | cons o rest ih =>
    intro img hinv
    rw [List.foldl_cons]
    exact ih _ (adjust_okFV _ _ _ _ _ _ _ (hK ct o) hinv)

theorem foldl_adjust_ninf (corr : Nat → Nat → Kern) (H W : Nat) (ct : Nat)
    (sc : Nat × Nat) (a : ℚ)
    (hK : ∀ u v x y, ∃ q : ℚ, (corr u v).f x y = FV.fin q) (i j : Nat) :
    ∀ (l : List Nat) (img : Img), img i j = FV.ninf →
      (l.foldl
        (fun im oct => adjust_with_correlation im (2 * H) (2 * W) (corr ct oct)
          (local_coords_to_global_idx sc oct (H, W) (2 * H, 2 * W)) (FV.fin a)
          (decide (oct = ct))) img) i j = FV.ninf := by
  intro l
  induction l with
  | nil => intro img h; exact h
  | cons o rest ih =>
    intro img h
    rw [List.foldl_cons]
    exact ih _ (adjust_ninf _ _ _ _ _ _ _ (hK ct o) _ _ h)

theorem foldl_adjust_le (corr : Nat → Nat → Kern) (H W : Nat) (ct : Nat)
    (sc : Nat × Nat) (a : ℚ) (ha : 0 ≤ a)
    (hK : ∀ u v x y, ∃ q : ℚ, 0 ≤ q ∧ (corr u v).f x y = FV.fin q) :
    ∀ (l : List Nat) (img : Img), InvImg img → ∀ i j,
      fle ((l.foldl
        (fun im oct => adjust_with_correlation im (2 * H) (2 * W) (corr ct oct)
          (local_coords_to_global_idx sc oct (H, W) (2 * H, 2 * W)) (FV.fin a)
          (decide (oct = ct))) img) i j) (img i j) = true := by
  have hKw : ∀ u v x y, ∃ q : ℚ, (corr u v).f x y = FV.fin q :=
    fun u v x y => ⟨(hK u v x y).choose, (hK u v x y).choose_spec.2⟩
  intro l
  induction l with
  | nil => intro img hinv i j; exact fle_refl _ (hinv i j).2
  | cons o rest ih =>
    intro img hinv i j
    rw [List.foldl_cons]
    have hstep : InvImg (adjust_with_correlation img (2 * H) (2 * W) (corr ct o)
        (local_coords_to_global_idx sc o (H, W) (2 * H, 2 * W)) (FV.fin a)
        (decide (o = ct))) := adjust_okFV _ _ _ _ _ _ _ (hKw ct o) hinv
    exact fle_trans (ih _ hstep i j)
      (adjust_le _ _ _ _ _ _ _ ha (hK ct o) hinv i j)

theorem corrections_okFV (corr : Nat → Nat → Kern) (H W n : Nat) (ct : Nat)
    (sc : Nat × Nat) (a : ℚ) (img : Img)
    (hK : ∀ u v x y, ∃ q : ℚ, (corr u v).f x y = FV.fin q) (hinv : InvImg img) :
    InvImg (corrections corr H W n ct sc (FV.fin a) img) :=
  foldl_adjust_okFV corr H W ct sc a hK (List.range n) img hinv

theorem corrections_ninf (corr : Nat → Nat → Kern) (H W n : Nat) (ct : Nat)
    (sc : Nat × Nat) (a : ℚ) (img : Img) (i j : Nat)
    (hK : ∀ u v x y, ∃ q : ℚ, (corr u v).f x y = FV.fin q) (h : img i j = FV.ninf) :
    corrections corr H W n ct sc (FV.fin a) img i j = FV.ninf :=
  foldl_adjust_ninf corr H W ct sc a hK i j (List.range n) img h

theorem corrections_le (corr : Nat → Nat → Kern) (H W n : Nat) (ct : Nat)
    (sc : Nat × Nat) (a : ℚ) (ha : 0 ≤ a) (img : Img)
    (hK : ∀ u v x y, ∃ q : ℚ, 0 ≤ q ∧ (corr u v).f x y = FV.fin q) (hinv : InvImg img)
    (i j : Nat) :
    fle (corrections corr H W n ct sc (FV.fin a) img i j) (img i j) = true :=
  foldl_adjust_le corr H W ct sc a ha hK (List.range n) img hinv i j

theorem corrections_marks (corr : Nat → Nat → Kern) (H W : Nat) (ct : Nat)
    (sc : Nat × Nat) (a : ℚ) (img : Img) (r c : Nat)
    (hK : ∀ u v x y, ∃ q : ℚ, (corr u v).f x y = FV.fin q) (hinv : InvImg img)
    (hct : ct < 4)
    (hidx : local_coords_to_global_idx sc ct (H, W) (2 * H, 2 * W) = r * (2 * W) + c)
    (hc : c < 2 * W) :
    corrections corr H W 4 ct sc (FV.fin a) img r c = FV.ninf := by
  have hrange : List.range 4 = [0, 1, 2, 3] := rfl
  rw [corrections, hrange]
  simp only [List.foldl_cons, List.foldl_nil]
  interval_cases ct
  · apply adjust_ninf _ _ _ _ _ _ _ (hK 0 3)
    apply adjust_ninf _ _ _ _ _ _ _ (hK 0 2)
    apply adjust_ninf _ _ _ _ _ _ _ (hK 0 1)
    exact adjust_own _ _ _ _ _ _ (hK 0 0) hinv r c hidx hc
  · apply adjust_ninf _ _ _ _ _ _ _ (hK 1 3)
    apply adjust_ninf _ _ _ _ _ _ _ (hK 1 2)
    exact adjust_own _ _ _ _ _ _ (hK 1 1)
      (adjust_okFV _ _ _ _ _ _ _ (hK 1 0) hinv) r c hidx hc
  · apply adjust_ninf _ _ _ _ _ _ _ (hK 2 3)
    exact adjust_own _ _ _ _ _ _ (hK 2 2)
      (adjust_okFV _ _ _ _ _ _ _ (hK 2 1)
        (adjust_okFV _ _ _ _ _ _ _ (hK 2 0) hinv)) r c hidx hc
  · exact adjust_own _ _ _ _ _ _ (hK 3 3)
      (adjust_okFV _ _ _ _ _ _ _ (hK 3 2)
        (adjust_okFV _ _ _ _ _ _ _ (hK 3 1)
          (adjust_okFV _ _ _ _ _ _ _ (hK 3 0) hinv))) r c hidx hc

/-! ## Decomposing one loop iteration -/

theorem focalBody_some_eq {corr : Nat → Nat → Kern} {H W n : Nat} {img : Img}
    {s : Spike} {img' : Img}
    (h : focalBody corr H W n img = some (s, img')) :
    guardBad (selVal img H W) = false ∧
    s = ⟨(singleCoords (selRow img H W) (selCol img H W) H W).1 * W +
          (singleCoords (selRow img H W) (selCol img H W) H W).2,
        selVal img H W,
        cell_type_from_global_coords (selRow img H W, selCol img H W) (H, W)⟩ ∧
    img' = corrections corr H W n
        (cell_type_from_global_coords (selRow img H W, selCol img H W) (H, W))
        (singleCoords (selRow img H W) (selCol img H W) H W) (selVal img H W) img := by
  rw [focalBody] at h
  split at h
  · exact absurd h (by simp)
  · next hg =>
    obtain ⟨h1, h2⟩ := Prod.mk.injEq .. |>.mp (Option.some.inj h)
    exact ⟨by simpa using hg, h1.symm, h2.symm⟩

theorem singleCoords_eq (r c H W : Nat) :
    singleCoords r c H W = (r % H, c % W) := by
  rw [singleCoords]
  split
  · next hrc =>
    exact Prod.ext (Nat.mod_eq_of_lt hrc.1).symm (Nat.mod_eq_of_lt hrc.2).symm
  · have e1 : r - H * (r / H) = r % H := by
      have := Nat.mod_add_div r H
      omega
    have e2 : c - W * (c / W) = c % W := by
      have := Nat.mod_add_div c W
      omega
    rw [global_to_single_coords]
    simp only
    rw [e1, e2]

theorem cellType_decomp (r c H W : Nat) (hr : r < 2 * H) (hc : c < 2 * W)
    (hH : 0 < H) (hW : 0 < W) :
    cell_type_from_global_coords (r, c) (H, W) < 4 ∧
    cell_type_from_global_coords (r, c) (H, W) / 2 = r / H ∧
    cell_type_from_global_coords (r, c) (H, W) % 2 = c / W := by
  have hrH : r / H < 2 := by
    rw [Nat.div_lt_iff_lt_mul hH]
    omega
  have hcW : c / W < 2 := by
    rw [Nat.div_lt_iff_lt_mul hW]
    omega
  rw [cell_type_from_global_coords]
  simp only
  refine ⟨by omega, ?_, ?_⟩
  · rw [Nat.mul_comm (r / H) 2, Nat.mul_add_div (by omega), Nat.div_eq_of_lt hcW,
      Nat.add_zero]
  · rw [Nat.mul_comm (r / H) 2, Nat.mul_add_mod, Nat.mod_eq_of_lt hcW]

theorem spikeCell_of_coords (r c H W : Nat) (hr : r < 2 * H) (hc : c < 2 * W)
    (hH : 0 < H) (hW : 0 < W) (v : FV) :
    spikeCell ⟨(singleCoords r c H W).1 * W + (singleCoords r c H W).2, v,
      cell_type_from_global_coords (r, c) (H, W)⟩ H W = (r, c) := by
  obtain ⟨-, h2, h3⟩ := cellType_decomp r c H W hr hc hH hW
  rw [singleCoords_eq]
  rw [spikeCell]
  simp only
  have hdiv : (r % H * W + c % W) / W = r % H := by
    rw [Nat.mul_comm (r % H) W, Nat.mul_add_div hW, Nat.div_eq_of_lt (Nat.mod_lt _ hW),
      Nat.add_zero]
  have hmod : (r % H * W + c % W) % W = c % W := by
    rw [Nat.mul_comm (r % H) W, Nat.mul_add_mod, Nat.mod_eq_of_lt (Nat.mod_lt _ hW)]
  rw [hdiv, hmod, h2, h3, Nat.mod_add_div' r H, Nat.mod_add_div' c W]

theorem idx_of_max (r c H W : Nat) (hr : r < 2 * H) (hc : c < 2 * W)
    (hH : 0 < H) (hW : 0 < W) :
    local_coords_to_global_idx (singleCoords r c H W)
      (cell_type_from_global_coords (r, c) (H, W)) (H, W) (2 * H, 2 * W) =
      r * (2 * W) + c := by
  obtain ⟨-, h2, h3⟩ := cellType_decomp r c H W hr hc hH hW
  rw [singleCoords_eq, local_coords_to_global_idx]
  simp only
  rw [h2, h3, Nat.mod_add_div' r H, Nat.mod_add_div' c W]

theorem body_facts (corr : Nat → Nat → Kern) (H W n : Nat) (img : Img) (s : Spike)
    (img' : Img) (hH : 0 < H) (hW : 0 < W) (hinv : InvImg img)
    (h : focalBody corr H W n img = some (s, img')) :
    ∃ a : ℚ, s.value = FV.fin a ∧
      spikeCell s H W = (selRow img H W, selCol img H W) ∧
      img (selRow img H W) (selCol img H W) = FV.fin a ∧
      s.cell_type < 4 ∧
      s.cell_type = cell_type_from_global_coords (selRow img H W, selCol img H W) (H, W) ∧
      img' = corrections corr H W n s.cell_type
        (singleCoords (selRow img H W) (selCol img H W) H W) (FV.fin a) img := by
  obtain ⟨hg, hs, hi⟩ := focalBody_some_eq h
  obtain ⟨hrow, hcol, -⟩ := sel_spec img H W hH hW hinv
  obtain ⟨a, ha⟩ := guard_false_fin (hinv _ _) hg
  refine ⟨a, ?_, ?_, ha, ?_, ?_, ?_⟩
  · rw [hs]
    exact ha
  · rw [hs]
    exact spikeCell_of_coords _ _ H W hrow hcol hH hW _
  · rw [hs]
    exact (cellType_decomp _ _ H W hrow hcol hH hW).1
  · rw [hs]
  · have hval : selVal img H W = FV.fin a := ha
    rw [hi, hs, hval]

theorem buildBig_inv (imgs : List Img) (H W : Nat) (hH : 0 < H) (hW : 0 < W)
    (hmaps : ∀ im ∈ imgs, ∀ i j, i < H → j < W → ∃ q : ℚ, im i j = FV.fin q) :
    InvImg (buildBig imgs H W) := by
  intro r c
  rw [buildBig]
  split
  · next hcase =>
    obtain ⟨q, hq⟩ := hmaps _ (List.get_mem imgs _ _) (r % H) (c % W)
      (Nat.mod_lt _ hH) (Nat.mod_lt _ hW)
    rw [hq, replaceZero]
    split
    · exact okFV_ninf
    · exact okFV_fin _
  · exact okFV_fin _

/-! ## No cell is re-emitted (C2) -/

theorem body_marks (corr : Nat → Nat → Kern) (H W : Nat) (img : Img) (s : Spike)
    (img' : Img) (hH : 0 < H) (hW : 0 < W) (hinv : InvImg img)
    (hK : ∀ u v x y, ∃ q : ℚ, (corr u v).f x y = FV.fin q)
    (hb : focalBody corr H W 4 img = some (s, img')) :
    img' (spikeCell s H W).1 (spikeCell s H W).2 = FV.ninf := by
  obtain ⟨a, hval, hcell, himg, hct, hctEq, himg'⟩ :=
    body_facts corr H W 4 img s img' hH hW hinv hb
  obtain ⟨hrow, hcol, -⟩ := sel_spec img H W hH hW hinv
  rw [himg', hcell]
  apply corrections_marks corr H W s.cell_type _ a img _ _ hK hinv hct _ hcol
  rw [hctEq]
  exact idx_of_max _ _ H W hrow hcol hH hW

theorem loop_avoids (corr : Nat → Nat → Kern) (H W : Nat) (hH : 0 < H) (hW : 0 < W)
    (hK : ∀ u v x y, ∃ q : ℚ, (corr u v).f x y = FV.fin q) :
    ∀ (fuel : Nat) (img : Img) (p : Nat × Nat), InvImg img → img p.1 p.2 = FV.ninf →
      ∀ s ∈ focalLoop corr H W 4 fuel img, spikeCell s H W ≠ p := by
  intro fuel
  induction fuel with
  | zero =>
    intro img p _ _ s hs
    rw [focalLoop] at hs
    exact absurd hs (List.not_mem_nil s)
  | succ k ih =>
    intro img p hinv hp s hs
    rw [focalLoop] at hs
    cases hb : focalBody corr H W 4 img with
    | none =>
      rw [hb] at hs
      exact absurd hs (List.not_mem_nil s)
    | some pr =>
      obtain ⟨t, img'⟩ := pr
      rw [hb] at hs
      simp only [List.mem_cons] at hs
      obtain ⟨a, hval, hcell, himg, hct, hctEq, himg'⟩ :=
        body_facts corr H W 4 img t img' hH hW hinv hb
      rcases hs with rfl | hs
      · intro hEq
        rw [hcell] at hEq
        have hfin : img p.1 p.2 = FV.fin a := by
          rw [← hEq]
          exact himg
        rw [hp] at hfin
        exact FV.noConfusion hfin
      · have hinv' : InvImg img' := by
          rw [himg']
          exact corrections_okFV _ _ _ _ _ _ _ _ hK hinv
        have hp' : img' p.1 p.2 = FV.ninf := by
          rw [himg']
          exact corrections_ninf _ _ _ _ _ _ _ _ _ _ hK hp
        exact ih img' p hinv' hp' s hs

theorem loop_pairwise (corr : Nat → Nat → Kern) (H W : Nat) (hH : 0 < H) (hW : 0 < W)
    (hK : ∀ u v x y, ∃ q : ℚ, (corr u v).f x y = FV.fin q) :
    ∀ (fuel : Nat) (img : Img), InvImg img →
      List.Pairwise (fun s t : Spike => spikeCell s H W ≠ spikeCell t H W)
        (focalLoop corr H W 4 fuel img) := by
  intro fuel
  induction fuel with
  | zero =>
    intro img _
    rw [focalLoop]
    exact List.Pairwise.nil
  | succ k ih =>
    intro img hinv
    rw [focalLoop]
    cases hb : focalBody corr H W 4 img with
    | none => exact List.Pairwise.nil
    | some pr =>
      obtain ⟨t, img'⟩ := pr
      obtain ⟨a, hval, hcell, himg, hct, hctEq, himg'⟩ :=
        body_facts corr H W 4 img t img' hH hW hinv hb
      have hinv' : InvImg img' := by
        rw [himg']
        exact corrections_okFV _ _ _ _ _ _ _ _ hK hinv
      have hmark : img' (spikeCell t H W).1 (spikeCell t H W).2 = FV.ninf :=
        body_marks corr H W img t img' hH hW hinv hK hb
      refine List.Pairwise.cons ?_ (ih img' hinv')
      intro u hu
      exact (loop_avoids corr H W hH hW hK k img' (spikeCell t H W) hinv' hmark u hu).symm

/-- C2: within one run of `focal` (four finite maps, finite kernels): a
cell once `-inf` stays `-inf` through every further loop iteration; the
cell that produced the emitted spike is `-inf` immediately after its
corrections; consequently no (channel, local_index) pair is emitted twice. -/
theorem c2_monotonic_exhaustion (H W : Nat) (corr : Nat → Nat → Kern)
    (hH : 0 < H) (hW : 0 < W)
    (hK : ∀ u v x y, ∃ q : ℚ, (corr u v).f x y = FV.fin q) :
    (∀ (img : Img) (s : Spike) (img' : Img) (i j : Nat), InvImg img →
      focalBody corr H W 4 img = some (s, img') → img i j = FV.ninf →
      img' i j = FV.ninf) ∧
    (∀ (img : Img) (s : Spike) (img' : Img), InvImg img →
      focalBody corr H W 4 img = some (s, img') →
      img' (spikeCell s H W).1 (spikeCell s H W).2 = FV.ninf) ∧
    (∀ (imgs : List Img) (spu : ℚ), imgs.length = 4 →
      (∀ im ∈ imgs, ∀ i j, i < H → j < W → ∃ q : ℚ, im i j = FV.fin q) →
      List.Pairwise
        (fun s t : Spike => (s.cell_type, s.local_idx) ≠ (t.cell_type, t.local_idx))
        (focal imgs H W corr spu)) := by
  refine ⟨?_, ?_, ?_⟩
  · intro img s img' i j hinv hb hninf
    obtain ⟨a, -, -, -, -, -, himg'⟩ := body_facts corr H W 4 img s img' hH hW hinv hb
    rw [himg']
    exact corrections_ninf _ _ _ _ _ _ _ _ _ _ hK hninf
  · intro img s img' hinv hb
    exact body_marks corr H W img s img' hH hW hinv hK hb
  · intro imgs spu hlen hmaps
    have hinv0 := buildBig_inv imgs H W hH hW hmaps
    have hpw := loop_pairwise corr H W hH hW hK (budget imgs H W spu)
      (buildBig imgs H W) hinv0
    rw [focal, hlen]
    refine hpw.imp ?_
    intro s t hne hpair
    apply hne
    have h1 : s.cell_type = t.cell_type := congrArg Prod.fst hpair
    have h2 : s.local_idx = t.local_idx := congrArg Prod.snd hpair
    rw [spikeCell, spikeCell, h1, h2]

/-- C2 witness: four 1x1 finite maps and all-zero kernels. -/
theorem c2_monotonic_exhaustion_witness :
    List.Pairwise
      (fun s t : Spike => (s.cell_type, s.local_idx) ≠ (t.cell_type, t.local_idx))
      (focal w2imgs 1 1 (fun _ _ => zeroKern1) 1) :=
  (c2_monotonic_exhaustion 1 1 (fun _ _ => zeroKern1) (by decide) (by decide)
      (fun _ _ _ _ => ⟨0, rfl⟩)).2.2 w2imgs 1 rfl
    (by
      intro im him i j hi hj
      simp only [w2imgs, List.mem_cons, List.not_mem_nil, or_false] at him
      rcases him with rfl | rfl | rfl | rfl
      · exact ⟨5, rfl⟩
      · exact ⟨2, rfl⟩
      · exact ⟨0, rfl⟩
      · exact ⟨0, rfl⟩)

/-! ## Non-increase of emitted values while they stay nonnegative (C3) -/

theorem body_val_le (corr : Nat → Nat → Kern) (H W n : Nat) (img : Img) (s : Spike)
    (img' : Img) (B : FV) (hH : 0 < H) (hW : 0 < W) (hinv : InvImg img)
    (hub : ∀ i j, i < 2 * H → j < 2 * W → fle (img i j) B = true)
    (hb : focalBody corr H W n img = some (s, img')) :
    fle s.value B = true := by
  obtain ⟨hg, hs, -⟩ := focalBody_some_eq hb
  obtain ⟨hrow, hcol, -⟩ := sel_spec img H W hH hW hinv
  rw [hs]
  exact hub _ _ hrow hcol

theorem body_ub (corr : Nat → Nat → Kern) (H W n : Nat) (img : Img) (s : Spike)
    (img' : Img) (a : ℚ) (hH : 0 < H) (hW : 0 < W) (hinv : InvImg img)
    (ha : 0 ≤ a) (hval : s.value = FV.fin a)
    (hK : ∀ u v x y, ∃ q : ℚ, 0 ≤ q ∧ (corr u v).f x y = FV.fin q)
    (hb : focalBody corr H W n img = some (s, img')) :
    ∀ i j, i < 2 * H → j < 2 * W → fle (img' i j) (FV.fin a) = true := by
  have hKw : ∀ u v x y, ∃ q : ℚ, (corr u v).f x y = FV.fin q :=
    fun u v x y => ⟨(hK u v x y).choose, (hK u v x y).choose_spec.2⟩
  obtain ⟨a', hval', hcell, himg, hct, hctEq, himg'⟩ :=
    body_facts corr H W n img s img' hH hW hinv hb
  have haa : a' = a := by
    rw [hval] at hval'
    exact FV.fin.inj hval'.symm
  subst haa
  intro i j hi hj
  have h1 : fle (img' i j) (img i j) = true := by
    rw [himg']
    exact corrections_le _ _ _ _ _ _ _ ha _ hK hinv i j
  have h2 : fle (img i j) (FV.fin a') = true := by
    have hmax := (sel_spec img H W hH hW hinv).2.2 i j hi hj
    have hsel : selVal img H W = FV.fin a' := himg
    rwa [hsel] at hmax
  exact fle_trans h1 h2

theorem loop_chain (corr : Nat → Nat → Kern) (H W n : Nat) (hH : 0 < H) (hW : 0 < W)
    (hK : ∀ u v x y, ∃ q : ℚ, 0 ≤ q ∧ (corr u v).f x y = FV.fin q) :
    ∀ (fuel : Nat) (img : Img), InvImg img →
      List.Chain' (fun s t : Spike => ∀ a : ℚ, s.value = FV.fin a → 0 ≤ a →
        fle t.value s.value = true) (focalLoop corr H W n fuel img) := by
  have hKw : ∀ u v x y, ∃ q : ℚ, (corr u v).f x y = FV.fin q :=
    fun u v x y => ⟨(hK u v x y).choose, (hK u v x y).choose_spec.2⟩
  intro fuel
  induction fuel with
  | zero =>
    intro img _
    rw [focalLoop]
    exact List.chain'_nil
  | succ k ih =>
    intro img hinv
    rw [focalLoop]
    cases hb : focalBody corr H W n img with
    | none => exact List.chain'_nil
    | some pr =>
      obtain ⟨t, img'⟩ := pr
      have hinv' : InvImg img' := by
        obtain ⟨a, -, -, -, -, -, himg'⟩ := body_facts corr H W n img t img' hH hW hinv hb
        rw [himg']
        exact corrections_okFV _ _ _ _ _ _ _ _ hKw hinv
      rw [List.chain'_cons']
      refine ⟨?_, ih img' hinv'⟩
      intro u hu a hta ha0
      cases k with
      | zero =>
        rw [focalLoop] at hu
        simp at hu
      | succ k' =>
        rw [focalLoop] at hu
        cases hb' : focalBody corr H W n img' with
        | none =>
          rw [hb'] at hu
          simp at hu
        | some pr' =>
          obtain ⟨u', img''⟩ := pr'
          rw [hb'] at hu
          simp only [List.head?_cons, Option.mem_def, Option.some.injEq] at hu
          have hub := body_ub corr H W n img t img' a hH hW hinv ha0 hta hK hb
          have hles := body_val_le corr H W n img' u' img'' (FV.fin a) hH hW hinv' hub hb'
          rw [hta, ← hu]
          exact hles

/-- C3 (amended): with nonnegative finite correlation kernels and finite
maps, the emitted sequence is non-increasing at every step whose emitted
value is nonnegative: if spike `i` carries a finite value `a ≥ 0` then
spike `i+1`'s value is `≤ a`.  (Once emitted values become negative the
subtraction can raise cells above the current maximum, as the
counterexample shows, so the unconditional claim fails.) -/
theorem c3_nonincreasing_amended (imgs : List Img) (H W : Nat)
    (corr : Nat → Nat → Kern) (spu : ℚ) (hH : 0 < H) (hW : 0 < W)
    (hmaps : ∀ im ∈ imgs, ∀ i j, i < H → j < W → ∃ q : ℚ, im i j = FV.fin q)
    (hK : ∀ u v x y, ∃ q : ℚ, 0 ≤ q ∧ (corr u v).f x y = FV.fin q) :
    List.Chain' (fun s t : Spike => ∀ a : ℚ, s.value = FV.fin a → 0 ≤ a →
      fle t.value s.value = true) (focal imgs H W corr spu) := by
  rw [focal]
  exact loop_chain corr H W imgs.length hH hW hK _ _ (buildBig_inv imgs H W hH hW hmaps)

/-- C3 witness: four 1x1 finite maps and all-zero kernels. -/
theorem c3_nonincreasing_amended_witness :
    List.Chain' (fun s t : Spike => ∀ a : ℚ, s.value = FV.fin a → 0 ≤ a →
      fle t.value s.value = true) (focal w2imgs 1 1 (fun _ _ => zeroKern1) 1) :=
  c3_nonincreasing_amended w2imgs 1 1 (fun _ _ => zeroKern1) 1 (by decide) (by decide)
    (by
      intro im him i j hi hj
      simp only [w2imgs, List.mem_cons, List.not_mem_nil, or_false] at him
      rcases him with rfl | rfl | rfl | rfl
      · exact ⟨5, rfl⟩
      · exact ⟨2, rfl⟩
      · exact ⟨0, rfl⟩
      · exact ⟨0, rfl⟩)
    (fun _ _ _ _ => ⟨0, le_refl 0, rfl⟩)
